import Mathlib

/-!
Shallow embedding of the evo-grid repository's `world-grid` engine
(src/world-grid/src/lib.rs) and a verification of the specification's
claims about it.

Machine integers (`u32`, `u8`, `usize`) are modelled as `Nat`; the `f64`/`f32`
values flowing through the RNG and the genome-merge primitives are modelled as
exact rationals.  The `Random` wrapper around `SmallRng` is modelled as an
oracle: a deterministic stream of uniform draws in `[0,1)` (one per
`next_bool` call, the draw compared against the probability) and a stream of
standard-normal deviates (one per `next_normal` call).  `fork` moves to a
fresh child stream addressed by the parent's path and position, advancing the
parent, mirroring `SmallRng::from_rng(&mut self.rng)`.  Rust panics are
modelled by `Option` results, and the unbounded rejection loop of
`next_truncated_normal` takes explicit fuel.
-/

namespace EvoGrid

/-- Oracle model of `Random` (src/world-grid/src/lib.rs): `uniforms p n` is
the n-th uniform draw in `[0,1)` of the stream at fork-path `p`, `normals p n`
the n-th standard-normal deviate of that stream; `path`/`pos` locate the
current stream and its next draw. -/
structure Random where
  uniforms : List Nat → Nat → ℚ
  normals : List Nat → Nat → ℚ
  path : List Nat
  pos : Nat

/-- The draws of a well-formed uniform oracle lie in `[0,1)`, as the draws of
a real PRNG-backed Bernoulli sampler do. -/
def Random.WF (r : Random) : Prop :=
  ∀ p n, 0 ≤ r.uniforms p n ∧ r.uniforms p n < 1

/-- Model of `Random::next_bool(p)`: a Bernoulli draw, true iff the next
uniform draw is below `p`; consumes one draw. -/
def Random.next_bool (r : Random) (p : ℚ) : Bool × Random :=
  (decide (r.uniforms r.path r.pos < p), { r with pos := r.pos + 1 })

/-- Model of `Random::fork()`: derive a child stream from the parent's current
state, advancing the parent so repeated forks never alias. -/
def Random.fork (r : Random) : Random × Random :=
  ({ r with path := r.path ++ [r.pos], pos := 0 },
   { r with pos := r.pos + 1 })

/-- Model of `Random::next_normal(mean, stdev)`: mean + stdev * z with z the
next standard-normal deviate of the oracle; consumes one draw. -/
def Random.next_normal (r : Random) (mean stdev : ℚ) : ℚ × Random :=
  (mean + stdev * r.normals r.path r.pos, { r with pos := r.pos + 1 })

/-- Model of `Random::next_truncated_normal`: rejection-sample normals until
one falls inside `[lo, hi]`.  The Rust loop is unbounded; the model takes
explicit fuel and returns `none` when the fuel runs out. -/
def Random.next_truncated_normal (r : Random) (mean stdev lo hi : ℚ) :
    Nat → Option (ℚ × Random)
  | 0 => none
  | fuel + 1 =>
    let s := r.next_normal mean stdev
    if lo ≤ s.1 ∧ s.1 ≤ hi then some s
    else s.2.next_truncated_normal mean stdev lo hi fuel

/-- Model of `Random::multi_fork_option(rand, count)`: fork `count` child
streams in index order from the caller's stream (all `none` when the caller
passed `none`), returning the children and the advanced parent. -/
def Random.multi_fork_option : Option Random → Nat → List (Option Random) × Option Random
  | rand, 0 => ([], rand)
  | none, n + 1 =>
    let rest := Random.multi_fork_option none n
    (none :: rest.1, rest.2)
  | some r, n + 1 =>
    let f := r.fork
    let rest := Random.multi_fork_option (some f.2) n
    (some f.1 :: rest.1, rest.2)

/-- Model of `BitSet8`: an 8-bit flag vector; `bits` is the `u8` value. -/
structure BitSet8 where
  bits : Nat
deriving DecidableEq

def BitSet8.empty : BitSet8 := ⟨0⟩

/-- Model of `BitSet8::is_bit_set`. -/
def BitSet8.is_bit_set (b : BitSet8) (index : Nat) : Bool :=
  b.bits.testBit index

/-- Model of `BitSet8::set_bit` (`bits |= 1 << index`). -/
def BitSet8.set_bit (b : BitSet8) (index : Nat) : BitSet8 :=
  ⟨b.bits ||| 2 ^ index⟩

/-- Model of `BitSet8::flip_bit` (`bits ^= 1 << index`). -/
def BitSet8.flip_bit (b : BitSet8) (index : Nat) : BitSet8 :=
  ⟨b.bits ^^^ 2 ^ index⟩

/-- Model of `BitCountsMap`: per-bit-position tallies of parents with the bit
set (`ones`) and clear (`zeros`); the `[u32; 8]` arrays are modelled as
functions, read only at indices below 8. -/
structure BitCountsMap where
  ones : Nat → Nat
  zeros : Nat → Nat

def BitCountsMap.new : BitCountsMap :=
  ⟨fun _ => 0, fun _ => 0⟩

/-- Model of `BitCountsMap::increment`. -/
def BitCountsMap.increment (m : BitCountsMap) (bits : BitSet8) : BitCountsMap :=
  ⟨fun i => if bits.is_bit_set i then m.ones i + 1 else m.ones i,
   fun i => if bits.is_bit_set i then m.zeros i else m.zeros i + 1⟩

/-- Model of `BitCountsMap::merge_counts`: the per-position vote.  The
`rand.as_mut().unwrap()` panic on a mixed position with an absent RNG is
modelled by `none`. -/
def BitCountsMap.merge_counts (numOnes numZeros : Nat) (rand : Option Random) :
    Option (Bool × Option Random) :=
  if numOnes = 0 then some (false, rand)
  else if numZeros = 0 then some (true, rand)
  else
    match rand with
    | none => none
    | some r =>
      let odds : ℚ := (numOnes : ℚ) / ((numOnes : ℚ) + (numZeros : ℚ))
      let b := r.next_bool odds
      some (b.1, some b.2)

/-- Model of the mutation arm of `BitCountsMap::as_bit_set`'s loop body:
when an RNG is present, flip bit `i` with probability `mutationOdds`. -/
def BitCountsMap.mutation_step (st : BitSet8 × Option Random) (i : Nat)
    (mutationOdds : ℚ) : BitSet8 × Option Random :=
  match st.2 with
  | none => st
  | some r =>
    let b := r.next_bool mutationOdds
    (if b.1 then st.1.flip_bit i else st.1, some b.2)

/-- One iteration of the `for i in 0..8` loop of `BitCountsMap::as_bit_set`:
vote on bit `i`, then apply the mutation arm. -/
def BitCountsMap.bit_step (m : BitCountsMap) (mutationOdds : ℚ)
    (st : BitSet8 × Option Random) (i : Nat) : Option (BitSet8 × Option Random) :=
  match BitCountsMap.merge_counts (m.ones i) (m.zeros i) st.2 with
  | none => none
  | some br =>
    some (BitCountsMap.mutation_step (if br.1 then st.1.set_bit i else st.1, br.2) i
      mutationOdds)

/-- Model of `BitCountsMap::as_bit_set`: fold the per-bit step over bit
positions 0..8, starting from the empty bit set. -/
def BitCountsMap.as_bit_set (m : BitCountsMap) (rand : Option Random)
    (mutationOdds : ℚ) : Option (BitSet8 × Option Random) :=
  (List.range 8).foldlM (BitCountsMap.bit_step m mutationOdds) (BitSet8.empty, rand)

/-- Model of `BitSet8Gene`. -/
structure BitSet8Gene where
  value : BitSet8
deriving DecidableEq

/-- Model of `BitSet8Gene::merge`: tally every parent's bits, then derive the
child bit set (vote plus mutation).  The `ArrayVec<Self, 8>` of parents is
modelled as a list. -/
def BitSet8Gene.merge (genes : List BitSet8Gene) (rand : Option Random)
    (mutationOdds : ℚ) : Option (BitSet8Gene × Option Random) :=
  let bitCounts := genes.foldl (fun m g => m.increment g.value) BitCountsMap.new
  (bitCounts.as_bit_set rand mutationOdds).map fun p => (⟨p.1⟩, p.2)

/-- Model of `FractionGene`: a scalar genome value, `f32` modelled as `ℚ`. -/
structure FractionGene where
  value : ℚ
deriving DecidableEq

/-- Model of `FractionGene::merge`: average the parents; with an RNG present,
resample via a truncated normal around the average on `[0,1]` (fuelled
rejection loop), otherwise return the average itself. -/
def FractionGene.merge (genes : List FractionGene) (rand : Option Random)
    (mutationStdev : ℚ) (fuel : Nat) : Option (FractionGene × Option Random) :=
  let averageValue : ℚ := (genes.map fun g => g.value).sum / (genes.length : ℚ)
  match rand with
  | some r =>
    (r.next_truncated_normal averageValue mutationStdev 0 1 fuel).map
      fun p => (⟨p.1⟩, some p.2)
  | none => some (⟨averageValue⟩, none)

/-- Model of `GridSize`. -/
structure GridSize where
  width : Nat
  height : Nat
deriving DecidableEq

def GridSize.area (s : GridSize) : Nat := s.width * s.height

/-- Model of `Loc`. -/
structure Loc where
  row : Nat
  col : Nat
deriving DecidableEq

/-- Model of `Loc::grid_index`: row-major index when in bounds. -/
def Loc.grid_index (loc : Loc) (size : GridSize) : Option Nat :=
  if loc.row < size.height ∧ loc.col < size.width then
    some (loc.row * size.width + loc.col)
  else none

/-- Model of `WorldGridCells<C>`: flat row-major cell storage. -/
structure WorldGridCells (C : Type) where
  size : GridSize
  cells : List C

/-- Model of `WorldGridCells::cell`: bounds-checked lookup. -/
def WorldGridCells.cell {C : Type} (wc : WorldGridCells C) (loc : Loc) : Option C :=
  (loc.grid_index wc.size).bind fun index => wc.cells.get? index

/-- Total lookup for engine-internal accesses (source: `Index<Loc>`), which
are always in bounds; out-of-bounds would panic in the source. -/
def WorldGridCells.cellD {C : Type} [Inhabited C] (wc : WorldGridCells C) (loc : Loc) : C :=
  (wc.cell loc).getD default

/-- Model of `WorldGridCells::copy_from` (a full `copy_from_slice`). -/
def WorldGridCells.copy_from {C : Type} (wc source : WorldGridCells C) : WorldGridCells C :=
  { wc with cells := source.cells }

/-- Model of `chunks_exact_mut(width)` as used by `(par_)rows_mut`: the list
of width-sized row slices of the flat buffer. -/
def WorldGridCells.row_slices {C : Type} (wc : WorldGridCells C) : List (List C) :=
  (List.range (wc.cells.length / wc.size.width)).map fun r =>
    (wc.cells.drop (r * wc.size.width)).take wc.size.width

/-- Model of `Neighborhood<C>`: a center plus a read-only cell buffer. -/
structure Neighborhood (C : Type) where
  center : Loc
  cells : WorldGridCells C

/-- Model of `Neighborhood::index_range`:
`center.saturating_sub(1)..(center + 2).min(max)` as the list of indices it
contains, in order. -/
def Neighborhood.index_range (center max : Nat) : List Nat :=
  List.range' (center - 1) (min (center + 2) max - (center - 1))

/-- The locations visited, in order, by the loop of
`Neighborhood::for_neighbor_cells`: the row range crossed with the column
range, the center excluded. -/
def Neighborhood.neighbor_locs {C : Type} (nb : Neighborhood C) : List Loc :=
  (Neighborhood.index_range nb.center.row nb.cells.size.height).flatMap fun row =>
    (Neighborhood.index_range nb.center.col nb.cells.size.width).filterMap fun col =>
      if (⟨row, col⟩ : Loc) ≠ nb.center then some (⟨row, col⟩ : Loc) else none

/-- Model of `Neighborhood::for_neighbor_cells`: the cells passed to the
visitor, in visit order. -/
def Neighborhood.for_neighbor_cells {C : Type} [Inhabited C] (nb : Neighborhood C) : List C :=
  nb.neighbor_locs.map fun loc => nb.cells.cellD loc

/-- Model of `WorldGrid<C>`: the current and next cell buffers. -/
structure WorldGrid (C : Type) where
  size : GridSize
  cells : WorldGridCells C
  next_cells : WorldGridCells C

/-- Model of `WorldGrid::update_cell`: read the current cell, build its
neighborhood over the current buffer, and let the transition write the slot
at `loc.col` of the row's next-cells slice.  The cell transition
(`GridCell::update`) is the engine's extension point and is passed in as
`upd`. -/
def WorldGrid.update_cell {C : Type} [Inhabited C]
    (upd : C → Neighborhood C → C → Option Random → C × Option Random)
    (loc : Loc) (cells : WorldGridCells C) (nextCellsRow : List C)
    (rand : Option Random) : List C × Option Random :=
  let cell := cells.cellD loc
  let neighborhood : Neighborhood C := ⟨loc, cells⟩
  let r := upd cell neighborhood (nextCellsRow.getD loc.col default) rand
  (nextCellsRow.set loc.col r.1, r.2)

/-- Model of `WorldGrid::update_row`: the `for col in 0..width` loop. -/
def WorldGrid.update_row {C : Type} [Inhabited C]
    (upd : C → Neighborhood C → C → Option Random → C × Option Random)
    (row : Nat) (cells : WorldGridCells C) (nextCellsRow : List C) (width : Nat)
    (rand : Option Random) : List C × Option Random :=
  (List.range width).foldl
    (fun st col => WorldGrid.update_cell upd ⟨row, col⟩ cells st.1 st.2)
    (nextCellsRow, rand)

/-- Model of `WorldGrid::update_cells`: fork one RNG stream per **column
count** (`self.size.width`, as in the source), zip the row slices of the next
buffer with the forked streams — truncating at the shorter of the two, as
`rayon`'s `zip` does — and run `update_row` on each zipped pair; row slices
beyond the zip keep their prior contents. -/
def WorldGrid.update_cells {C : Type} [Inhabited C]
    (upd : C → Neighborhood C → C → Option Random → C × Option Random)
    (g : WorldGrid C) (rand : Option Random) : WorldGrid C × Option Random :=
  let forked := Random.multi_fork_option rand g.size.width
  let rows := g.next_cells.row_slices
  let pairs := rows.zip forked.1
  let newRows :=
    (pairs.enum.map fun p =>
      (WorldGrid.update_row upd p.1 g.cells p.2.1 g.size.width p.2.2).1)
    ++ rows.drop pairs.length
  ({ g with next_cells := { g.next_cells with cells := newRows.flatten } }, forked.2)

/-- Model of `WorldGrid::update`: snapshot current into next, run the
caller's `other_update` hook, run the per-cell pass, swap the buffers.  The
`FnMut(&mut Self)` hook is modelled as a grid-to-grid function. -/
def WorldGrid.update {C : Type} [Inhabited C]
    (upd : C → Neighborhood C → C → Option Random → C × Option Random)
    (g : WorldGrid C) (rand : Option Random)
    (other_update : WorldGrid C → WorldGrid C) : WorldGrid C × Option Random :=
  let g1 := { g with next_cells := g.next_cells.copy_from g.cells }
  let g2 := other_update g1
  let r := WorldGrid.update_cells upd g2 rand
  ({ r.1 with cells := r.1.next_cells, next_cells := r.1.cells }, r.2)

/-! Concrete values used by witnesses and counterexamples. -/

/-- A concrete well-formed oracle: every uniform draw is one half, every
normal deviate is zero. -/
def randHalf : Random := ⟨fun _ _ => 1/2, fun _ _ => 0, [], 0⟩

theorem randHalf_WF : randHalf.WF := by
  intro p n
  constructor <;> norm_num [randHalf]

/-- An increment transition for natural-number cells: the next value of a
cell is its current value plus one, the RNG untouched. -/
def updIncr : Nat → Neighborhood Nat → Nat → Option Random → Nat × Option Random :=
  fun c _ _ rand => (c + 1, rand)

/-- A 1-wide, 2-tall all-zero grid of natural-number cells. -/
def grid12 : WorldGrid Nat := ⟨⟨1, 2⟩, ⟨⟨1, 2⟩, [0, 0]⟩, ⟨⟨1, 2⟩, [0, 0]⟩⟩

/-- A 2-wide, 3-tall all-zero grid of natural-number cells. -/
def grid23 : WorldGrid Nat := ⟨⟨2, 3⟩, ⟨⟨2, 3⟩, [0, 0, 0, 0, 0, 0]⟩, ⟨⟨2, 3⟩, [0, 0, 0, 0, 0, 0]⟩⟩

/-- A 3x3 grid buffer of natural-number cells, all zero. -/
def cells33 : WorldGridCells Nat := ⟨⟨3, 3⟩, List.replicate 9 0⟩

/-! Helper lemmas. -/

theorem foldlM_isSome_of_forall_some {α β : Type} (f : β → α → Option β) (l : List α)
    (hf : ∀ b a, (f b a).isSome = true) : ∀ b, (l.foldlM f b).isSome = true := by
  induction l with
  | nil => intro b; simp
  | cons a t ih =>
    intro b
    have ha := hf b a
    cases hfa : f b a with
    | none => rw [hfa] at ha; simp at ha
    | some b2 => simp only [List.foldlM_cons, hfa, Option.bind_eq_bind, Option.some_bind]; exact ih b2

theorem mem_index_range (c mx x : Nat) :
    x ∈ Neighborhood.index_range c mx ↔ c - 1 ≤ x ∧ x < min (c + 2) mx := by
  simp only [Neighborhood.index_range, List.mem_range']
  constructor
  · rintro ⟨i, hi, rfl⟩
    omega
  · rintro ⟨h1, h2⟩
    exact ⟨x - (c - 1), by omega, by omega⟩

theorem mem_neighbor_locs {C : Type} (cells : WorldGridCells C) (center loc : Loc) :
    loc ∈ (Neighborhood.mk center cells).neighbor_locs ↔
      (center.row - 1 ≤ loc.row ∧ loc.row < min (center.row + 2) cells.size.height ∧
       center.col - 1 ≤ loc.col ∧ loc.col < min (center.col + 2) cells.size.width ∧
       loc ≠ center) := by
  simp only [Neighborhood.neighbor_locs, List.mem_flatMap, List.mem_filterMap]
  constructor
  · rintro ⟨row, hrow, col, hcol, hif⟩
    rw [mem_index_range] at hrow hcol
    by_cases hc : (⟨row, col⟩ : Loc) ≠ center
    · rw [if_pos hc] at hif
      obtain rfl := Option.some.inj hif
      exact ⟨hrow.1, hrow.2, hcol.1, hcol.2, hc⟩
    · rw [if_neg hc] at hif
      exact absurd hif (Option.noConfusion)
  · rintro ⟨h1, h2, h3, h4, h5⟩
    refine ⟨loc.row, (mem_index_range _ _ _).mpr ⟨h1, h2⟩,
            loc.col, (mem_index_range _ _ _).mpr ⟨h3, h4⟩, ?_⟩
    have he : (⟨loc.row, loc.col⟩ : Loc) = loc := rfl
    rw [he, if_pos h5]

/-! Claim C1. -/

/-- C1 counterexample: on a 3x3 grid the loop of
`Neighborhood::for_neighbor_cells` centered at `Loc(0,0)` visits exactly the
in-bounds cells `(0,1)`, `(1,0)`, `(1,1)`; in particular it does not visit
`Loc(h-1,w-1) = Loc(2,2)`, which the claimed toroidal neighbor set contains. -/
theorem neighborhood_not_toroidal :
    (Neighborhood.mk (Loc.mk 0 0) cells33).neighbor_locs =
      [Loc.mk 0 1, Loc.mk 1 0, Loc.mk 1 1] ∧
    Loc.mk 2 2 ∉ (Neighborhood.mk (Loc.mk 0 0) cells33).neighbor_locs := by decide

/-- C1 (amended): `Neighborhood` exposes the Moore neighborhood clamped to
the grid boundary, not a toroidal one: the visited locations are exactly
those with row in `[center.row - 1, min (center.row + 2) h)` (saturating at
zero) and column likewise, the center excluded; in particular on any grid
with `w, h ≥ 2` the neighbor set visited for `Loc(0,0)` is exactly
`{Loc(0,1), Loc(1,0), Loc(1,1)}` — edge rows and columns do not wrap. -/
theorem neighborhood_clamped (C : Type) (cells : WorldGridCells C) (center loc : Loc)
    (hw : 2 ≤ cells.size.width) (hh : 2 ≤ cells.size.height) :
    (loc ∈ (Neighborhood.mk center cells).neighbor_locs ↔
      center.row - 1 ≤ loc.row ∧ loc.row < min (center.row + 2) cells.size.height ∧
      center.col - 1 ≤ loc.col ∧ loc.col < min (center.col + 2) cells.size.width ∧
      loc ≠ center)
    ∧ (Neighborhood.mk (Loc.mk 0 0) cells).neighbor_locs =
        [Loc.mk 0 1, Loc.mk 1 0, Loc.mk 1 1] := by
  refine ⟨mem_neighbor_locs cells center loc, ?_⟩
  have h2 : min (0 + 2) cells.size.height = 2 := by omega
  have w2 : min (0 + 2) cells.size.width = 2 := by omega
  simp only [Neighborhood.neighbor_locs, Neighborhood.index_range, h2, w2]
  rfl

/-- C1 witness: the amended characterization instantiated on the 3x3 grid
with center `(1,1)` and probe location `(2,2)`. -/
theorem neighborhood_clamped_witness :
    ((Loc.mk 2 2 ∈ (Neighborhood.mk (Loc.mk 1 1) cells33).neighbor_locs ↔
      (Loc.mk 1 1).row - 1 ≤ (Loc.mk 2 2).row ∧
      (Loc.mk 2 2).row < min ((Loc.mk 1 1).row + 2) cells33.size.height ∧
      (Loc.mk 1 1).col - 1 ≤ (Loc.mk 2 2).col ∧
      (Loc.mk 2 2).col < min ((Loc.mk 1 1).col + 2) cells33.size.width ∧
      Loc.mk 2 2 ≠ Loc.mk 1 1)
    ∧ (Neighborhood.mk (Loc.mk 0 0) cells33).neighbor_locs =
        [Loc.mk 0 1, Loc.mk 1 0, Loc.mk 1 1]) :=
  neighborhood_clamped Nat cells33 (Loc.mk 1 1) (Loc.mk 2 2) (by decide) (by decide)

/-! Claims C2 and C3. -/

/-- C2 (code bug): `WorldGrid::update_cells` forks `self.size.width` RNG
substreams, not one per row; on a 1-wide, 2-tall grid it forks a single
substream for two rows, and since the zip with the row slices truncates at
the shorter side, row 1's transition is never executed: with an increment
transition the committed generation is `[1, 0]`, not `[1, 1]`. -/
theorem update_forks_width_not_height :
    (Random.multi_fork_option (some randHalf) grid12.size.width).1.length = 1 ∧
    grid12.size.height = 2 ∧
    (WorldGrid.update updIncr grid12 none id).1.cells.cells = [1, 0] := by
  refine ⟨rfl, rfl, by decide⟩

/-- C3 (code bug): on a 2-wide, 3-tall grid one `update` call transitions
only the first two rows (the zip of three row slices with two forked
substreams truncates), so the committed generation keeps a stale copy of the
prior generation in its last row instead of being a completely written next
generation. -/
theorem update_generation_incomplete :
    (WorldGrid.update updIncr grid23 none id).1.cells.cells = [1, 1, 1, 1, 0, 0] ∧
    (WorldGrid.update updIncr grid23 none id).1.cells.cells ≠
      grid23.cells.cells.map (fun c => c + 1) := by decide

/-! Claim C5. -/

/-- C5 counterexample: invoking `BitSet8Gene::merge` with an empty parent
set does not abort; it returns normally with the all-zeros genome. -/
theorem merge_no_parents_returns_normally :
    BitSet8Gene.merge [] none (1/2) = some (⟨⟨0⟩⟩, none) := rfl

/-- C5 (amended): an empty parent set is not validated against:
`BitSet8Gene::merge([], rand, odds)` returns normally for every RNG argument
and every mutation odds (each bit position tallies `ones = zeros = 0`, which
the vote resolves to 0 without consulting the RNG), and with an absent RNG
the result is exactly the all-zeros genome. -/
theorem merge_no_parents_no_abort (rand : Option Random) (modds : ℚ) :
    (BitSet8Gene.merge [] rand modds).isSome = true ∧
    BitSet8Gene.merge [] none modds = some (⟨⟨0⟩⟩, none) := by
  constructor
  · have h : ∀ (st : BitSet8 × Option Random) (i : Nat),
        (BitCountsMap.bit_step BitCountsMap.new modds st i).isSome = true := by
      intro st i
      rfl
    have hs := foldlM_isSome_of_forall_some _ (List.range 8) h (BitSet8.empty, rand)
    simp only [BitSet8Gene.merge, BitCountsMap.as_bit_set, List.foldl_nil]
    cases hf : (List.range 8).foldlM (BitCountsMap.bit_step BitCountsMap.new modds)
        (BitSet8.empty, rand) with
    | none => rw [hf] at hs; simp at hs
    | some st => rfl
  · rfl

/-! Claim C6. -/

/-- C6: for every well-formed RNG state, `next_bool(0.0)` returns false and
`next_bool(1.0)` returns true — exactly, on every draw: the uniform draw `u`
satisfies `0 ≤ u < 1`, so `u < 0` never holds and `u < 1` always does. -/
theorem next_bool_zero_false_one_true (r : Random) (h : r.WF) :
    (r.next_bool 0).1 = false ∧ (r.next_bool 1).1 = true := by
  obtain ⟨h0, h1⟩ := h r.path r.pos
  constructor
  · simpa [Random.next_bool] using not_lt.mpr h0
  · simpa [Random.next_bool] using h1

/-- C6 witness: the all-halves oracle. -/
theorem next_bool_zero_false_one_true_witness :
    (randHalf.next_bool 0).1 = false ∧ (randHalf.next_bool 1).1 = true :=
  next_bool_zero_false_one_true randHalf randHalf_WF

/-! Genome-merge tallies, expressed directly over the parent list. -/

/-- Number of parents with bit `i` set (the tally `ones[i]`). -/
def onesCount (genes : List BitSet8Gene) (i : Nat) : Nat :=
  genes.countP fun g => g.value.is_bit_set i

/-- Number of parents with bit `i` clear (the tally `zeros[i]`). -/
def zerosCount (genes : List BitSet8Gene) (i : Nat) : Nat :=
  genes.countP fun g => !g.value.is_bit_set i

theorem foldl_increment_ones (genes : List BitSet8Gene) (acc : BitCountsMap) (i : Nat) :
    (genes.foldl (fun m g => m.increment g.value) acc).ones i
      = acc.ones i + onesCount genes i := by
  induction genes generalizing acc with
  | nil => simp [onesCount]
  | cons g t ih =>
    simp only [List.foldl_cons, ih, onesCount, List.countP_cons]
    by_cases hb : g.value.is_bit_set i
    · simp [BitCountsMap.increment, hb]
      omega
    · simp [BitCountsMap.increment, hb]

theorem foldl_increment_zeros (genes : List BitSet8Gene) (acc : BitCountsMap) (i : Nat) :
    (genes.foldl (fun m g => m.increment g.value) acc).zeros i
      = acc.zeros i + zerosCount genes i := by
  induction genes generalizing acc with
  | nil => simp [zerosCount]
  | cons g t ih =>
    simp only [List.foldl_cons, ih, zerosCount, List.countP_cons]
    by_cases hb : g.value.is_bit_set i
    · simp [BitCountsMap.increment, hb]
    · simp [BitCountsMap.increment, hb]
      omega

/-! Bit-level lemmas about BitSet8 operations. -/

theorem is_bit_set_set_bit (bs : BitSet8) (i j : Nat) :
    ((bs.set_bit i).is_bit_set j = true) ↔ (bs.is_bit_set j = true ∨ j = i) := by
  simp only [BitSet8.set_bit, BitSet8.is_bit_set, Nat.testBit_lor, Bool.or_eq_true]
  by_cases h : i = j
  · subst h
    simp [Nat.testBit_two_pow_self]
  · simp only [Nat.testBit_two_pow_of_ne h, Bool.false_eq_true, or_false]
    exact (or_iff_left fun hj : j = i => h hj.symm).symm

theorem is_bit_set_flip_bit (bs : BitSet8) (i j : Nat) :
    (bs.flip_bit i).is_bit_set j
      = if j = i then !(bs.is_bit_set j) else bs.is_bit_set j := by
  simp only [BitSet8.flip_bit, BitSet8.is_bit_set, Nat.testBit_xor]
  by_cases h : j = i
  · subst h
    simp [Nat.testBit_two_pow_self, Bool.xor_true]
  · simp [h, Nat.testBit_two_pow_of_ne fun hh => h hh.symm]

theorem foldl_vote_is_bit_set (m : BitCountsMap) (l : List Nat) (bs : BitSet8) (j : Nat) :
    ((l.foldl (fun b i => if m.ones i = 0 then b else b.set_bit i) bs).is_bit_set j = true ↔
      (bs.is_bit_set j = true ∨ (j ∈ l ∧ m.ones j ≠ 0))) := by
  induction l generalizing bs with
  | nil => simp
  | cons a t ih =>
    simp only [List.foldl_cons]
    by_cases ha : m.ones a = 0
    · rw [if_pos ha, ih]
      simp only [List.mem_cons]
      constructor
      · rintro (h | ⟨hm, ho⟩)
        · exact Or.inl h
        · exact Or.inr ⟨Or.inr hm, ho⟩
      · rintro (h | ⟨(rfl | hm), ho⟩)
        · exact Or.inl h
        · exact absurd ha ho
        · exact Or.inr ⟨hm, ho⟩
    · rw [if_neg ha, ih]
      rw [is_bit_set_set_bit]
      simp only [List.mem_cons]
      constructor
      · rintro ((h | rfl) | ⟨hm, ho⟩)
        · exact Or.inl h
        · exact Or.inr ⟨Or.inl rfl, ha⟩
        · exact Or.inr ⟨Or.inr hm, ho⟩
      · rintro (h | ⟨(rfl | hm), ho⟩)
        · exact Or.inl (Or.inl h)
        · exact Or.inl (Or.inr rfl)
        · exact Or.inr ⟨hm, ho⟩

/-! Fold lemmas for the 0..8 loop of as_bit_set. -/

theorem foldlM_bit_step_none (m : BitCountsMap) (modds : ℚ) (l : List Nat) (bs : BitSet8) :
    l.foldlM (BitCountsMap.bit_step m modds) (bs, (none : Option Random))
      = if ∀ i ∈ l, m.ones i = 0 ∨ m.zeros i = 0 then
          some (l.foldl (fun b i => if m.ones i = 0 then b else b.set_bit i) bs, none)
        else none := by
  induction l generalizing bs with
  | nil => simp
  | cons a t ih =>
    by_cases h1 : m.ones a = 0
    · have hstep : BitCountsMap.bit_step m modds (bs, none) a = some (bs, none) := by
        simp [BitCountsMap.bit_step, BitCountsMap.merge_counts, h1, BitCountsMap.mutation_step]
      rw [List.foldlM_cons, hstep]
      simp only [Option.bind_eq_bind, Option.some_bind, ih]
      simp [List.forall_mem_cons, h1]
    · by_cases h2 : m.zeros a = 0
      · have hstep : BitCountsMap.bit_step m modds (bs, none) a
            = some (bs.set_bit a, none) := by
          simp [BitCountsMap.bit_step, BitCountsMap.merge_counts, h1, h2,
            BitCountsMap.mutation_step]
        rw [List.foldlM_cons, hstep]
        simp only [Option.bind_eq_bind, Option.some_bind, ih]
        simp [List.forall_mem_cons, h1, h2]
      · have hstep : BitCountsMap.bit_step m modds (bs, none) a = none := by
          simp [BitCountsMap.bit_step, BitCountsMap.merge_counts, h1, h2]
        rw [List.foldlM_cons, hstep]
        have hno : ¬ ∀ i ∈ a :: t, m.ones i = 0 ∨ m.zeros i = 0 := by
          intro hall
          rcases hall a (List.mem_cons_self a t) with h | h <;> contradiction
        simp only [Option.bind_eq_bind, Option.none_bind]
        rw [if_neg hno]

theorem foldlM_bit_step_some_unanimous_zero (m : BitCountsMap) (l : List Nat)
    (bs : BitSet8) (r : Random) (hWF : r.WF)
    (hu : ∀ i ∈ l, m.ones i = 0 ∨ m.zeros i = 0) :
    l.foldlM (BitCountsMap.bit_step m 0) (bs, some r)
      = some (l.foldl (fun b i => if m.ones i = 0 then b else b.set_bit i) bs,
              some { r with pos := r.pos + l.length }) := by
  induction l generalizing bs r with
  | nil => simp
  | cons a t ih =>
    obtain ⟨h0, _⟩ := hWF r.path r.pos
    have hnb : r.next_bool 0 = (false, { r with pos := r.pos + 1 }) := by
      simp only [Random.next_bool, Prod.mk.injEq, and_true, decide_eq_false_iff_not]
      exact not_lt.mpr h0
    have hWF2 : ({ r with pos := r.pos + 1 } : Random).WF := hWF
    have hlen : r.pos + 1 + t.length = r.pos + (a :: t).length := by
      simp
      omega
    by_cases h1 : m.ones a = 0
    · have hstep : BitCountsMap.bit_step m 0 (bs, some r) a
          = some (bs, some { r with pos := r.pos + 1 }) := by
        simp [BitCountsMap.bit_step, BitCountsMap.merge_counts, h1,
          BitCountsMap.mutation_step, hnb]
      rw [List.foldlM_cons, hstep]
      simp only [Option.bind_eq_bind, Option.some_bind]
      rw [ih bs { r with pos := r.pos + 1 } hWF2 fun i hi => hu i (List.mem_cons_of_mem a hi)]
      simp only [List.foldl_cons, if_pos h1, List.length_cons]
      rw [show r.pos + 1 + t.length = r.pos + (t.length + 1) from by omega]
    · have h2 : m.zeros a = 0 := (hu a (List.mem_cons_self a t)).resolve_left h1
      have hstep : BitCountsMap.bit_step m 0 (bs, some r) a
          = some (bs.set_bit a, some { r with pos := r.pos + 1 }) := by
        simp [BitCountsMap.bit_step, BitCountsMap.merge_counts, h1, h2,
          BitCountsMap.mutation_step, hnb]
      rw [List.foldlM_cons, hstep]
      simp only [Option.bind_eq_bind, Option.some_bind]
      rw [ih (bs.set_bit a) { r with pos := r.pos + 1 } hWF2
        fun i hi => hu i (List.mem_cons_of_mem a hi)]
      simp only [List.foldl_cons, if_neg h1, List.length_cons]
      rw [show r.pos + 1 + t.length = r.pos + (t.length + 1) from by omega]

theorem BitSet8.eq_of_bits_eq : ∀ {a b : BitSet8}, a.bits = b.bits → a = b
  | ⟨_⟩, ⟨_⟩, rfl => rfl

theorem is_bit_set_set_bit_eq (bs : BitSet8) (i j : Nat) :
    (bs.set_bit i).is_bit_set j = if j = i then true else bs.is_bit_set j := by
  by_cases h : j = i
  · subst h
    simp [BitSet8.set_bit, BitSet8.is_bit_set, Nat.testBit_lor, Nat.testBit_two_pow_self]
  · simp [BitSet8.set_bit, BitSet8.is_bit_set, Nat.testBit_lor, h,
      Nat.testBit_two_pow_of_ne fun hh => h hh.symm]

/-! Draw-position bookkeeping for the stochastic merge: with an RNG present,
processing bit i consumes one uniform draw for the vote exactly when the
position is mixed, and always one more for the mutation arm. -/

/-- The tallies computed by the first loop of `BitSet8Gene::merge`. -/
def countsOf (genes : List BitSet8Gene) : BitCountsMap :=
  genes.foldl (fun m g => m.increment g.value) BitCountsMap.new

/-- Whether bit position `i` is mixed: some parent has it set and some has
it clear, so the vote needs an RNG draw. -/
def mixedAt (m : BitCountsMap) (i : Nat) : Bool :=
  decide (0 < m.ones i) && decide (0 < m.zeros i)

/-- Number of mixed positions strictly below `i`: the number of vote draws
consumed before bit `i` is processed. -/
def mixedBelow (m : BitCountsMap) (i : Nat) : Nat :=
  (List.range i).countP fun j => mixedAt m j

/-- Index into the uniform-draw stream of the vote draw for bit `i` (used
only when the position is mixed). -/
def voteDrawPos (m : BitCountsMap) (r : Random) (i : Nat) : Nat :=
  r.pos + i + mixedBelow m i

/-- Index into the uniform-draw stream of the mutation draw for bit `i`. -/
def mutationDrawPos (m : BitCountsMap) (r : Random) (i : Nat) : Nat :=
  voteDrawPos m r i + (if mixedAt m i then 1 else 0)

/-- The vote outcome for bit `i`: clear when no parent has the bit, set when
all do, otherwise a Bernoulli draw at probability `ones/(ones+zeros)`. -/
def voteBit (m : BitCountsMap) (r : Random) (i : Nat) : Bool :=
  if m.ones i = 0 then false
  else if m.zeros i = 0 then true
  else decide (r.uniforms r.path (voteDrawPos m r i)
    < (m.ones i : ℚ) / ((m.ones i : ℚ) + (m.zeros i : ℚ)))

/-- Whether the mutation arm flips bit `i`: a Bernoulli draw at the mutation
odds, taken from the draw after the vote's. -/
def mutationBit (m : BitCountsMap) (modds : ℚ) (r : Random) (i : Nat) : Bool :=
  decide (r.uniforms r.path (mutationDrawPos m r i) < modds)

theorem mixedBelow_succ (m : BitCountsMap) (n : Nat) :
    mixedBelow m (n + 1) = mixedBelow m n + if mixedAt m n then 1 else 0 := by
  simp [mixedBelow, List.range_succ, List.countP_append, List.countP_cons]

theorem vote_mut_bits (out : BitSet8) (n : Nat) (hout : out.is_bit_set n = false)
    (bv bm : Bool) (j : Nat) :
    (if bm then (if bv then out.set_bit n else out).flip_bit n
     else (if bv then out.set_bit n else out)).is_bit_set j
      = if j = n then bv.xor bm else out.is_bit_set j := by
  by_cases hj : j = n
  · subst hj
    cases bv <;> cases bm <;>
      simp [is_bit_set_flip_bit, is_bit_set_set_bit_eq, hout]
  · cases bv <;> cases bm <;>
      simp [is_bit_set_flip_bit, is_bit_set_set_bit_eq, hj]

theorem foldlM_bit_step_some_spec (m : BitCountsMap) (modds : ℚ) (r0 : Random)
    (hWF : r0.WF) (n : Nat) :
    ∃ out : BitSet8,
      (List.range n).foldlM (BitCountsMap.bit_step m modds) (BitSet8.empty, some r0)
        = some (out, some { r0 with pos := r0.pos + n + mixedBelow m n }) ∧
      ∀ j, out.is_bit_set j
        = if j < n then (voteBit m r0 j).xor (mutationBit m modds r0 j) else false := by
  have _ := hWF
  induction n with
  | zero =>
    refine ⟨BitSet8.empty, ?_, ?_⟩
    · simp [mixedBelow]
    · intro j
      simp [BitSet8.empty, BitSet8.is_bit_set]
  | succ n ih =>
    obtain ⟨out, hfold, hbits⟩ := ih
    have hout : out.is_bit_set n = false := by
      rw [hbits n]
      simp
    rw [List.range_succ, List.foldlM_append, hfold]
    simp only [Option.bind_eq_bind, Option.some_bind, List.foldlM_cons, List.foldlM_nil,
      bind_pure]
    by_cases h1 : m.ones n = 0
    · have hmix : mixedAt m n = false := by
        simp [mixedAt, h1]
      have hstep : BitCountsMap.bit_step m modds
          (out, some { r0 with pos := r0.pos + n + mixedBelow m n }) n
          = some
            ((if decide (r0.uniforms r0.path (r0.pos + n + mixedBelow m n) < modds)
              then (if (false : Bool) then out.set_bit n else out).flip_bit n
              else (if (false : Bool) then out.set_bit n else out)),
             some { r0 with pos := r0.pos + n + mixedBelow m n + 1 }) := by
        simp [BitCountsMap.bit_step, BitCountsMap.merge_counts, h1,
          BitCountsMap.mutation_step, Random.next_bool]
      rw [hstep]
      have hpos : r0.pos + (n + 1) + mixedBelow m (n + 1)
          = r0.pos + n + mixedBelow m n + 1 := by
        rw [mixedBelow_succ, hmix]
        simp
        omega
      rw [hpos]
      refine ⟨_, rfl, ?_⟩
      intro j
      rw [vote_mut_bits out n hout false
        (decide (r0.uniforms r0.path (r0.pos + n + mixedBelow m n) < modds)) j]
      have hv : voteBit m r0 n = false := by
        simp [voteBit, h1]
      have hm : mutationBit m modds r0 n
          = decide (r0.uniforms r0.path (r0.pos + n + mixedBelow m n) < modds) := by
        simp [mutationBit, mutationDrawPos, voteDrawPos, hmix]
      by_cases hj : j = n
      · subst hj
        rw [if_pos rfl, if_pos (Nat.lt_succ_self j), hv, hm]
      · rw [if_neg hj, hbits j]
        by_cases hjn : j < n
        · rw [if_pos hjn, if_pos (by omega)]
        · rw [if_neg hjn, if_neg (by omega)]
    · by_cases h2 : m.zeros n = 0
      · have hmix : mixedAt m n = false := by
          simp [mixedAt, h2]
        have hstep : BitCountsMap.bit_step m modds
            (out, some { r0 with pos := r0.pos + n + mixedBelow m n }) n
            = some
              ((if decide (r0.uniforms r0.path (r0.pos + n + mixedBelow m n) < modds)
                then (if (true : Bool) then out.set_bit n else out).flip_bit n
                else (if (true : Bool) then out.set_bit n else out)),
               some { r0 with pos := r0.pos + n + mixedBelow m n + 1 }) := by
          simp [BitCountsMap.bit_step, BitCountsMap.merge_counts, h1, h2,
            BitCountsMap.mutation_step, Random.next_bool]
        rw [hstep]
        have hpos : r0.pos + (n + 1) + mixedBelow m (n + 1)
            = r0.pos + n + mixedBelow m n + 1 := by
          rw [mixedBelow_succ, hmix]
          simp
          omega
        rw [hpos]
        refine ⟨_, rfl, ?_⟩
        intro j
        rw [vote_mut_bits out n hout true
          (decide (r0.uniforms r0.path (r0.pos + n + mixedBelow m n) < modds)) j]
        have hv : voteBit m r0 n = true := by
          simp [voteBit, h1, h2]
        have hm : mutationBit m modds r0 n
            = decide (r0.uniforms r0.path (r0.pos + n + mixedBelow m n) < modds) := by
          simp [mutationBit, mutationDrawPos, voteDrawPos, hmix]
        by_cases hj : j = n
        · subst hj
          rw [if_pos rfl, if_pos (Nat.lt_succ_self j), hv, hm]
        · rw [if_neg hj, hbits j]
          by_cases hjn : j < n
          · rw [if_pos hjn, if_pos (by omega)]
          · rw [if_neg hjn, if_neg (by omega)]
      · have hp1 : 0 < m.ones n := Nat.pos_of_ne_zero h1
        have hp2 : 0 < m.zeros n := Nat.pos_of_ne_zero h2
        have hmix : mixedAt m n = true := by
          simp [mixedAt, hp1, hp2]
        have hstep : BitCountsMap.bit_step m modds
            (out, some { r0 with pos := r0.pos + n + mixedBelow m n }) n
            = some
              ((if decide (r0.uniforms r0.path (r0.pos + n + mixedBelow m n + 1) < modds)
                then (if decide (r0.uniforms r0.path (r0.pos + n + mixedBelow m n)
                        < (m.ones n : ℚ) / ((m.ones n : ℚ) + (m.zeros n : ℚ)))
                      then out.set_bit n else out).flip_bit n
                else (if decide (r0.uniforms r0.path (r0.pos + n + mixedBelow m n)
                        < (m.ones n : ℚ) / ((m.ones n : ℚ) + (m.zeros n : ℚ)))
                      then out.set_bit n else out)),
               some { r0 with pos := r0.pos + n + mixedBelow m n + 1 + 1 }) := by
          simp [BitCountsMap.bit_step, BitCountsMap.merge_counts, h1, h2,
            BitCountsMap.mutation_step, Random.next_bool]
        rw [hstep]
        have hpos : r0.pos + (n + 1) + mixedBelow m (n + 1)
            = r0.pos + n + mixedBelow m n + 1 + 1 := by
          rw [mixedBelow_succ, hmix]
          simp
          omega
        rw [hpos]
        refine ⟨_, rfl, ?_⟩
        intro j
        rw [vote_mut_bits out n hout
          (decide (r0.uniforms r0.path (r0.pos + n + mixedBelow m n)
            < (m.ones n : ℚ) / ((m.ones n : ℚ) + (m.zeros n : ℚ))))
          (decide (r0.uniforms r0.path (r0.pos + n + mixedBelow m n + 1) < modds)) j]
        have hv : voteBit m r0 n
            = decide (r0.uniforms r0.path (r0.pos + n + mixedBelow m n)
                < (m.ones n : ℚ) / ((m.ones n : ℚ) + (m.zeros n : ℚ))) := by
          simp [voteBit, h1, h2, voteDrawPos]
        have hm : mutationBit m modds r0 n
            = decide (r0.uniforms r0.path (r0.pos + n + mixedBelow m n + 1) < modds) := by
          simp [mutationBit, mutationDrawPos, voteDrawPos, hmix]
        by_cases hj : j = n
        · subst hj
          rw [if_pos rfl, if_pos (Nat.lt_succ_self j), hv, hm]
        · rw [if_neg hj, hbits j]
          by_cases hjn : j < n
          · rw [if_pos hjn, if_pos (by omega)]
          · rw [if_neg hjn, if_neg (by omega)]

/-! Claim C8. -/

/-- Step 1 of `WorldGrid::update`: current snapshotted into next. -/
def WorldGrid.with_next_copied {C : Type} (g : WorldGrid C) : WorldGrid C :=
  { g with next_cells := g.next_cells.copy_from g.cells }

/-- A transition that sets the next value to the sum of the neighbor cells
it sees through the `Neighborhood` view. -/
def updSum : Nat → Neighborhood Nat → Nat → Option Random → Nat × Option Random :=
  fun _ nb _ rand => (nb.for_neighbor_cells.sum, rand)

/-- A 2x2 all-zero grid of natural-number cells. -/
def grid22 : WorldGrid Nat := ⟨⟨2, 2⟩, ⟨⟨2, 2⟩, [0, 0, 0, 0]⟩, ⟨⟨2, 2⟩, [0, 0, 0, 0]⟩⟩

/-- An exogenous hook in the style of `EvoWorld::update`'s substance
sources: stamp the value 5 into the NEXT buffer at `Loc(0,0)`. -/
def injectNext (g : WorldGrid Nat) : WorldGrid Nat :=
  { g with next_cells := { g.next_cells with cells := g.next_cells.cells.set 0 5 } }

/-- C8 counterexample: the hook that stamps 5 into the next buffer at
`Loc(0,0)` (exactly what the cited `EvoWorld::update` closure does through
`SubstanceSource::update_cells`) is not visible to the Neighborhood views of
the per-cell pass: with a neighbor-summing transition on an all-zero 2x2
grid, the committed value at `Loc(0,1)` is 0, although the stamped buffer
really held 5 at `Loc(0,0)` and a Neighborhood reading that buffer would
have summed 5. -/
theorem hook_next_injection_invisible :
    (WorldGrid.update updSum grid22 none injectNext).1.cells.cells = [0, 0, 0, 0] ∧
    (injectNext grid22.with_next_copied).next_cells.cells = [5, 0, 0, 0] ∧
    (Neighborhood.mk (Loc.mk 0 1)
      (injectNext grid22.with_next_copied).next_cells).for_neighbor_cells.sum = 5 ∧
    (WorldGrid.update updSum grid22 none injectNext).1.cells.cell (Loc.mk 0 1)
      ≠ some 5 := by decide

theorem multi_fork_option_none (n : Nat) :
    Random.multi_fork_option none n = (List.replicate n none, none) := by
  induction n with
  | zero => rfl
  | succ k ih => simp [Random.multi_fork_option, ih, List.replicate_succ]

theorem zip_replicate_none_getElem {α : Type} :
    ∀ (l : List α) (W r : Nat),
      (l.zip (List.replicate W (none : Option Random)))[r]?
        = if r < W then l[r]?.map (fun x => (x, (none : Option Random))) else none := by
  intro l
  induction l with
  | nil =>
    intro W r
    simp
  | cons hd tl ih =>
    intro W r
    cases W with
    | zero => simp
    | succ W2 =>
      cases r with
      | zero => simp [List.replicate_succ, List.zip_cons_cons]
      | succ r2 =>
        rw [List.replicate_succ, List.zip_cons_cons]
        simp only [List.getElem?_cons_succ]
        rw [ih W2 r2]
        by_cases h : r2 < W2
        · rw [if_pos h, if_pos (by omega)]
        · rw [if_neg h, if_neg (by omega)]

theorem update_row_none_spec {C : Type} [Inhabited C]
    (upd : C → Neighborhood C → C → Option Random → C × Option Random)
    (hupd : ∀ c nb x, (upd c nb x none).2 = none)
    (row : Nat) (cells : WorldGridCells C) (nextRow : List C) :
    ∀ width : Nat,
      (WorldGrid.update_row upd row cells nextRow width none).2 = none ∧
      (WorldGrid.update_row upd row cells nextRow width none).1.length = nextRow.length ∧
      ∀ col, ((WorldGrid.update_row upd row cells nextRow width none).1)[col]?
        = if col < width then
            (nextRow[col]?).map fun x =>
              (upd (cells.cellD ⟨row, col⟩) (Neighborhood.mk ⟨row, col⟩ cells) x none).1
          else nextRow[col]? := by
  intro width
  induction width with
  | zero =>
    refine ⟨rfl, rfl, ?_⟩
    intro col
    simp [WorldGrid.update_row]
  | succ w ih =>
    obtain ⟨ihr, ihl, ihe⟩ := ih
    have hunf : WorldGrid.update_row upd row cells nextRow (w + 1) none
        = WorldGrid.update_cell upd ⟨row, w⟩ cells
            (WorldGrid.update_row upd row cells nextRow w none).1
            (WorldGrid.update_row upd row cells nextRow w none).2 := by
      rw [WorldGrid.update_row, WorldGrid.update_row, List.range_succ, List.foldl_append]
      rfl
    rw [hunf, ihr]
    refine ⟨hupd _ _ _, ?_, ?_⟩
    · show ((WorldGrid.update_row upd row cells nextRow w none).1.set w _).length
        = nextRow.length
      rw [List.length_set, ihl]
    · intro col
      show ((WorldGrid.update_row upd row cells nextRow w none).1.set w _)[col]? = _
      by_cases hc : col = w
      · subst hc
        have hL2 : (WorldGrid.update_row upd row cells nextRow col none).1[col]?
            = nextRow[col]? := by
          rw [ihe col, if_neg (lt_irrefl col)]
        rw [List.getElem?_set_self', hL2, if_pos (Nat.lt_succ_self col)]
        cases hx : nextRow[col]? with
        | none => rfl
        | some x0 =>
          have hgd : (WorldGrid.update_row upd row cells nextRow col none).1.getD
              (Loc.mk row col).col default = x0 := by
            show (WorldGrid.update_row upd row cells nextRow col none).1.getD col default = x0
            rw [List.getD_eq_getElem?_getD, hL2, hx]
            rfl
          rw [hgd]
          rfl
      · rw [List.getElem?_set_ne fun hh => hc hh.symm, ihe col]
        by_cases hcw : col < w
        · rw [if_pos hcw, if_pos (by omega)]
        · rw [if_neg hcw, if_neg (by omega)]

theorem flatten_getElem_uniform {C : Type} (w : Nat) :
    ∀ rows : List (List C), (∀ (k : Nat) (row : List C), rows[k]? = some row → row.length = w) →
    ∀ r c : Nat, c < w →
      rows.flatten[r * w + c]? = rows[r]?.bind fun row => row[c]? := by
  intro rows
  induction rows with
  | nil =>
    intro _ r c _
    simp
  | cons hd tl ih =>
    intro hlen r c hc
    have hhd : hd.length = w := hlen 0 hd (by simp)
    rw [List.flatten_cons]
    cases r with
    | zero =>
      rw [List.getElem?_append, if_pos (by rw [hhd]; omega)]
      simp [Nat.zero_mul]
    | succ r2 =>
      have hge : w ≤ (r2 + 1) * w := Nat.le_mul_of_pos_left w r2.succ_pos
      rw [List.getElem?_append, if_neg (by rw [hhd]; omega)]
      have hsm : (r2 + 1) * w = r2 * w + w := Nat.succ_mul r2 w
      have harith : (r2 + 1) * w + c - hd.length = r2 * w + c := by
        rw [hhd]
        omega
      rw [harith, ih (fun k row hk => hlen (k + 1) row (by simpa using hk)) r2 c hc]
      simp

theorem slice_getElem {C : Type} (l : List C) (w a c : Nat) (hc : c < w) :
    ((l.drop a).take w)[c]? = l[a + c]? := by
  rw [List.getElem?_take, if_pos hc, List.getElem?_drop]

theorem row_slices_getElem_spec {C : Type} (wc : WorldGridCells C) (w h : Nat)
    (hsz : wc.size = ⟨w, h⟩) (hlen : wc.cells.length = h * w) (hw : 0 < w) (r : Nat) :
    wc.row_slices[r]? = if r < h then some ((wc.cells.drop (r * w)).take w) else none := by
  rw [WorldGridCells.row_slices, hsz, hlen]
  rw [List.getElem?_map]
  by_cases hr : r < h
  · rw [List.getElem?_range (by rw [Nat.mul_div_cancel h hw]; exact hr), if_pos hr]
    rfl
  · rw [if_neg hr]
    rw [List.getElem?_eq_none]
    · rfl
    · rw [List.length_range, Nat.mul_div_cancel h hw]
      omega

theorem row_slices_entry_length {C : Type} (wc : WorldGridCells C) (w h : Nat)
    (hsz : wc.size = ⟨w, h⟩) (hlen : wc.cells.length = h * w) (hw : 0 < w) :
    ∀ (k : Nat) (row : List C), wc.row_slices[k]? = some row → row.length = w := by
  intro k row hk
  rw [row_slices_getElem_spec wc w h hsz hlen hw k] at hk
  by_cases hkh : k < h
  · rw [if_pos hkh] at hk
    obtain rfl := Option.some.inj hk
    rw [List.length_take, List.length_drop, hlen]
    have hsm : (k + 1) * w = k * w + w := Nat.succ_mul k w
    have hle : (k + 1) * w ≤ h * w := Nat.mul_le_mul_right w hkh
    omega
  · rw [if_neg hkh] at hk
    exact absurd hk (Option.noConfusion)

theorem row_slices_length {C : Type} (wc : WorldGridCells C) (w h : Nat)
    (hsz : wc.size = ⟨w, h⟩) (hlen : wc.cells.length = h * w) (hw : 0 < w) :
    wc.row_slices.length = h := by
  simp [WorldGridCells.row_slices, hsz, hlen, Nat.mul_div_cancel h hw]

/-- C8 (amended): `other_update` runs after the snapshot of current into
next and before the per-cell pass, and the pass computes every Neighborhood
view over the current buffer exactly as the hook left it: effects the hook
injects into the CURRENT buffer are visible to those views, while effects
injected into the NEXT buffer (as the cited `EvoWorld` substance sources do)
reach the transitions only as the initial values of their own write slots,
becoming visible to Neighborhood views from the next update call onward.
Stated for the deterministic mode (absent RNG): the committed value at each
processed location is the transition applied to the post-hook current cell,
a Neighborhood over the post-hook current buffer, and the post-hook
next-buffer slot. -/
theorem hook_before_pass_current_visible {C : Type} [Inhabited C]
    (upd : C → Neighborhood C → C → Option Random → C × Option Random)
    (g : WorldGrid C) (f : WorldGrid C → WorldGrid C) (loc : Loc) (w h : Nat)
    (hupd : ∀ c nb x, (upd c nb x none).2 = none)
    (hsz : (f g.with_next_copied).size = ⟨w, h⟩)
    (hnsz : (f g.with_next_copied).next_cells.size = ⟨w, h⟩)
    (hnlen : (f g.with_next_copied).next_cells.cells.length = h * w)
    (hrh : loc.row < h) (hrw : loc.row < w) (hcw : loc.col < w) :
    (WorldGrid.update upd g none f).1.cells.cells[loc.row * w + loc.col]?
      = some ((upd ((f g.with_next_copied).cells.cellD loc)
          (Neighborhood.mk loc (f g.with_next_copied).cells)
          ((f g.with_next_copied).next_cells.cells.getD (loc.row * w + loc.col) default)
          none).1) := by
  have hw0 : 0 < w := by omega
  set g2 := f g.with_next_copied with hg2def
  have hwidth : g2.size.width = w := by rw [hsz]
  have hcells : (WorldGrid.update_cells upd g2 none).1.next_cells.cells
      = ((g2.next_cells.row_slices.zip
            (List.replicate g2.size.width (none : Option Random))).enum.map
          (fun p => (WorldGrid.update_row upd p.1 g2.cells p.2.1 g2.size.width p.2.2).1)
        ++ g2.next_cells.row_slices.drop
            (g2.next_cells.row_slices.zip
              (List.replicate g2.size.width (none : Option Random))).length).flatten := by
    show (((g2.next_cells.row_slices.zip (Random.multi_fork_option none g2.size.width).1).enum.map
          (fun p => (WorldGrid.update_row upd p.1 g2.cells p.2.1 g2.size.width p.2.2).1)
        ++ g2.next_cells.row_slices.drop
            (g2.next_cells.row_slices.zip
              (Random.multi_fork_option none g2.size.width).1).length).flatten) = _
    rw [multi_fork_option_none]
  rw [hwidth] at hcells
  have hrowslen : g2.next_cells.row_slices.length = h :=
    row_slices_length g2.next_cells w h hnsz hnlen hw0
  have hrowsk : ∀ (k : Nat) (row : List C),
      g2.next_cells.row_slices[k]? = some row → row.length = w :=
    row_slices_entry_length g2.next_cells w h hnsz hnlen hw0
  have hrloc : g2.next_cells.row_slices[loc.row]?
      = some ((g2.next_cells.cells.drop (loc.row * w)).take w) := by
    rw [row_slices_getElem_spec g2.next_cells w h hnsz hnlen hw0 loc.row, if_pos hrh]
  have hplen : (g2.next_cells.row_slices.zip
      (List.replicate w (none : Option Random))).length = min h w := by
    rw [List.length_zip, hrowslen, List.length_replicate]
  have hAlen : ((g2.next_cells.row_slices.zip
        (List.replicate w (none : Option Random))).enum.map
      (fun p => (WorldGrid.update_row upd p.1 g2.cells p.2.1 w p.2.2).1)).length
      = min h w := by
    rw [List.length_map, List.enum_length, hplen]
  have hA : (((g2.next_cells.row_slices.zip
        (List.replicate w (none : Option Random))).enum.map
      (fun p => (WorldGrid.update_row upd p.1 g2.cells p.2.1 w p.2.2).1)))[loc.row]?
      = some ((WorldGrid.update_row upd loc.row g2.cells
          ((g2.next_cells.cells.drop (loc.row * w)).take w) w none).1) := by
    rw [List.getElem?_map, List.getElem?_enum,
      zip_replicate_none_getElem g2.next_cells.row_slices w loc.row, if_pos hrw, hrloc]
    rfl
  have hall : ∀ (k : Nat) (row : List C),
      (((g2.next_cells.row_slices.zip
          (List.replicate w (none : Option Random))).enum.map
        (fun p => (WorldGrid.update_row upd p.1 g2.cells p.2.1 w p.2.2).1))
        ++ g2.next_cells.row_slices.drop
            (g2.next_cells.row_slices.zip
              (List.replicate w (none : Option Random))).length)[k]?
        = some row → row.length = w := by
    intro k row hk
    rw [List.getElem?_append] at hk
    by_cases hkA : k < ((g2.next_cells.row_slices.zip
        (List.replicate w (none : Option Random))).enum.map
      (fun p => (WorldGrid.update_row upd p.1 g2.cells p.2.1 w p.2.2).1)).length
    · rw [if_pos hkA, List.getElem?_map, List.getElem?_enum,
        zip_replicate_none_getElem g2.next_cells.row_slices w k] at hk
      by_cases hkw : k < w
      · rw [if_pos hkw] at hk
        cases hrk : g2.next_cells.row_slices[k]? with
        | none =>
          rw [hrk] at hk
          cases hk
        | some sl =>
          rw [hrk] at hk
          obtain rfl := Option.some.inj hk
          have hsl : sl.length = w := hrowsk k sl hrk
          exact ((update_row_none_spec upd hupd k g2.cells sl w).2.1).trans hsl
      · rw [if_neg hkw] at hk
        cases hk
    · rw [if_neg hkA, List.getElem?_drop] at hk
      exact hrowsk _ row hk
  have hidx : loc.row * w + loc.col < g2.next_cells.cells.length := by
    rw [hnlen]
    have hsm : (loc.row + 1) * w = loc.row * w + w := Nat.succ_mul _ _
    have hle : (loc.row + 1) * w ≤ h * w := Nat.mul_le_mul_right w hrh
    omega
  obtain ⟨val, hval⟩ : ∃ v, g2.next_cells.cells[loc.row * w + loc.col]? = some v := by
    rw [List.getElem?_eq_getElem hidx]
    exact ⟨_, rfl⟩
  have hgd : g2.next_cells.cells.getD (loc.row * w + loc.col) default = val := by
    rw [List.getD_eq_getElem?_getD, hval]
    rfl
  show (WorldGrid.update_cells upd g2 none).1.next_cells.cells[loc.row * w + loc.col]? = _
  rw [hcells, flatten_getElem_uniform w _ hall loc.row loc.col hcw]
  rw [List.getElem?_append, if_pos (by rw [hAlen]; omega), hA]
  show (WorldGrid.update_row upd loc.row g2.cells
      ((g2.next_cells.cells.drop (loc.row * w)).take w) w none).1[loc.col]? = _
  rw [(update_row_none_spec upd hupd loc.row g2.cells
      ((g2.next_cells.cells.drop (loc.row * w)).take w) w).2.2 loc.col, if_pos hcw]
  rw [slice_getElem g2.next_cells.cells w (loc.row * w) loc.col hcw, hval, hgd]
  rfl

/-- C8 witness: the increment transition on the 2x2 grid with the
next-buffer-stamping hook, at location (0,1). -/
theorem hook_before_pass_current_visible_witness :
    (WorldGrid.update updIncr grid22 none injectNext).1.cells.cells[0 * 2 + 1]?
      = some ((updIncr ((injectNext grid22.with_next_copied).cells.cellD ⟨0, 1⟩)
          (Neighborhood.mk ⟨0, 1⟩ (injectNext grid22.with_next_copied).cells)
          ((injectNext grid22.with_next_copied).next_cells.cells.getD (0 * 2 + 1) default)
          none).1) :=
  hook_before_pass_current_visible updIncr grid22 injectNext ⟨0, 1⟩ 2 2
    (fun _ _ _ => rfl) (by decide) (by decide) (by decide) (by decide) (by decide) (by decide)

/-! Claim C4. -/

/-- C4: with an RNG present and 1..8 parents, each merged bit `i` is the XOR
of (a) the per-position vote — 0 when no parent has the bit, 1 when no
parent lacks it, and otherwise a Bernoulli draw that is 1 exactly when the
uniform draw consumed for that position is below `ones/(ones+zeros)` — and
(b) an independent mutation flip whose own, separate uniform draw fires
below `mutation_odds`.  Under the uniform-oracle model of the RNG a
Bernoulli draw of probability `p` is `u < p` with `u` uniform in `[0,1)`,
so the vote is 1 with probability `ones/(ones+zeros)` and the flip occurs
with probability `mutation_odds`, independently (distinct draws). -/
theorem merge_bit_vote_and_mutation (genes : List BitSet8Gene) (r : Random) (modds : ℚ)
    (i : Nat) (hlen1 : 1 ≤ genes.length) (hlen8 : genes.length ≤ 8) (hWF : r.WF)
    (hi : i < 8) :
    ∃ (res : BitSet8Gene) (rres : Option Random),
      BitSet8Gene.merge genes (some r) modds = some (res, rres) ∧
      res.value.is_bit_set i
        = (voteBit (countsOf genes) r i).xor (mutationBit (countsOf genes) modds r i) ∧
      voteBit (countsOf genes) r i
        = (if onesCount genes i = 0 then false
           else if zerosCount genes i = 0 then true
           else decide (r.uniforms r.path (voteDrawPos (countsOf genes) r i)
             < (onesCount genes i : ℚ)
               / ((onesCount genes i : ℚ) + (zerosCount genes i : ℚ)))) ∧
      mutationBit (countsOf genes) modds r i
        = decide (r.uniforms r.path (mutationDrawPos (countsOf genes) r i) < modds) := by
  have _ := hlen1
  have _ := hlen8
  obtain ⟨out, hfold, hbits⟩ := foldlM_bit_step_some_spec (countsOf genes) modds r hWF 8
  have ho : (countsOf genes).ones i = onesCount genes i := by
    rw [countsOf, foldl_increment_ones]
    simp [BitCountsMap.new]
  have hz : (countsOf genes).zeros i = zerosCount genes i := by
    rw [countsOf, foldl_increment_zeros]
    simp [BitCountsMap.new]
  refine ⟨⟨out⟩, some { r with pos := r.pos + 8 + mixedBelow (countsOf genes) 8 },
    ?_, ?_, ?_, rfl⟩
  · show (((countsOf genes).as_bit_set (some r) modds).map
      fun p => ((⟨p.1⟩ : BitSet8Gene), p.2)) = _
    rw [BitCountsMap.as_bit_set, hfold]
    rfl
  · show out.is_bit_set i = _
    rw [hbits i, if_pos hi]
  · unfold voteBit
    rw [ho, hz]

/-- C4 witness: parents `00000011` and `00000101` (bit 1 mixed one-to-one),
the all-halves oracle, mutation odds 1/4, bit position 1. -/
theorem merge_bit_vote_and_mutation_witness :
    ∃ (res : BitSet8Gene) (rres : Option Random),
      BitSet8Gene.merge [⟨⟨3⟩⟩, ⟨⟨5⟩⟩] (some randHalf) (1/4) = some (res, rres) ∧
      res.value.is_bit_set 1
        = (voteBit (countsOf [⟨⟨3⟩⟩, ⟨⟨5⟩⟩]) randHalf 1).xor
            (mutationBit (countsOf [⟨⟨3⟩⟩, ⟨⟨5⟩⟩]) (1/4) randHalf 1) ∧
      voteBit (countsOf [⟨⟨3⟩⟩, ⟨⟨5⟩⟩]) randHalf 1
        = (if onesCount [⟨⟨3⟩⟩, ⟨⟨5⟩⟩] 1 = 0 then false
           else if zerosCount [⟨⟨3⟩⟩, ⟨⟨5⟩⟩] 1 = 0 then true
           else decide (randHalf.uniforms randHalf.path
               (voteDrawPos (countsOf [⟨⟨3⟩⟩, ⟨⟨5⟩⟩]) randHalf 1)
             < (onesCount [⟨⟨3⟩⟩, ⟨⟨5⟩⟩] 1 : ℚ)
               / ((onesCount [⟨⟨3⟩⟩, ⟨⟨5⟩⟩] 1 : ℚ) + (zerosCount [⟨⟨3⟩⟩, ⟨⟨5⟩⟩] 1 : ℚ)))) ∧
      mutationBit (countsOf [⟨⟨3⟩⟩, ⟨⟨5⟩⟩]) (1/4) randHalf 1
        = decide (randHalf.uniforms randHalf.path
            (mutationDrawPos (countsOf [⟨⟨3⟩⟩, ⟨⟨5⟩⟩]) randHalf 1) < 1/4) :=
  merge_bit_vote_and_mutation [⟨⟨3⟩⟩, ⟨⟨5⟩⟩] randHalf (1/4) 1 (by decide) (by decide)
    randHalf_WF (by decide)

/-! Claim C7. -/

theorem next_truncated_normal_mem_range (mean stdev lo hi : ℚ) :
    ∀ (fuel : Nat) (r : Random) (v : ℚ) (r2 : Random),
      r.next_truncated_normal mean stdev lo hi fuel = some (v, r2) → lo ≤ v ∧ v ≤ hi := by
  intro fuel
  induction fuel with
  | zero =>
    intro r v r2 h
    simp [Random.next_truncated_normal] at h
  | succ fuel ih =>
    intro r v r2 h
    simp only [Random.next_truncated_normal] at h
    by_cases hin : lo ≤ (r.next_normal mean stdev).1 ∧ (r.next_normal mean stdev).1 ≤ hi
    · rw [if_pos hin] at h
      have hv : (r.next_normal mean stdev).1 = v := congrArg Prod.fst (Option.some.inj h)
      rw [← hv]
      exact hin
    · rw [if_neg hin] at h
      exact ih _ _ _ h

/-- C7: for a non-empty parent set, `FractionGene::merge` with an absent RNG
returns exactly the arithmetic mean of the parents' values, for every
mutation stdev; with an RNG present it instead returns the truncated-normal
resample around that mean on `[0,1]` (and any value it returns lies in
`[0,1]`).  The `f32` values are modelled as exact rationals; the unbounded
rejection loop carries explicit fuel. -/
theorem fraction_merge_mean_or_resample (genes : List FractionGene) (stdev : ℚ)
    (fuel : Nat) (hne : genes ≠ []) :
    (∃ avg : ℚ, FractionGene.merge genes none stdev fuel = some (⟨avg⟩, none) ∧
       avg * (genes.length : ℚ) = (genes.map fun g => g.value).sum) ∧
    (∀ r : Random, FractionGene.merge genes (some r) stdev fuel
        = (r.next_truncated_normal
            ((genes.map fun g => g.value).sum / (genes.length : ℚ)) stdev 0 1 fuel).map
            fun p => (⟨p.1⟩, some p.2)) ∧
    (∀ (r : Random) (res : FractionGene) (rres : Option Random),
        FractionGene.merge genes (some r) stdev fuel = some (res, rres) →
        0 ≤ res.value ∧ res.value ≤ 1) := by
  refine ⟨⟨(genes.map fun g => g.value).sum / (genes.length : ℚ), rfl, ?_⟩,
    fun r => rfl, ?_⟩
  · have hlen : (genes.length : ℚ) ≠ 0 := by
      refine Nat.cast_ne_zero.mpr fun h0 => hne ?_
      exact List.length_eq_zero.mp h0
    exact div_mul_cancel₀ _ hlen
  · intro r res rres h
    rw [show FractionGene.merge genes (some r) stdev fuel
        = (r.next_truncated_normal
            ((genes.map fun g => g.value).sum / (genes.length : ℚ)) stdev 0 1 fuel).map
            (fun p => (⟨p.1⟩, some p.2)) from rfl] at h
    cases ht : r.next_truncated_normal
        ((genes.map fun g => g.value).sum / (genes.length : ℚ)) stdev 0 1 fuel with
    | none =>
      rw [ht] at h
      simp at h
    | some p =>
      rw [ht] at h
      have hres : ({ value := p.1 } : FractionGene) = res :=
        congrArg Prod.fst (Option.some.inj h)
      have hb := next_truncated_normal_mem_range _ stdev 0 1 fuel r p.1 p.2
        (by rw [ht])
      rw [show res.value = p.1 from by rw [← hres]]
      exact hb

/-- C7 witness: parents 1/5 and 2/5 (mean 3/10), stdev 1/10, fuel 1, and the
all-zero-deviate oracle, for which the resample returns the mean itself. -/
theorem fraction_merge_mean_or_resample_witness :
    (∃ avg : ℚ, FractionGene.merge [⟨1/5⟩, ⟨2/5⟩] none (1/10) 1 = some (⟨avg⟩, none) ∧
       avg * (([⟨1/5⟩, ⟨2/5⟩] : List FractionGene).length : ℚ)
         = (([⟨1/5⟩, ⟨2/5⟩] : List FractionGene).map fun g => g.value).sum) ∧
    (∀ r : Random, FractionGene.merge [⟨1/5⟩, ⟨2/5⟩] (some r) (1/10) 1
        = (r.next_truncated_normal
            ((([⟨1/5⟩, ⟨2/5⟩] : List FractionGene).map fun g => g.value).sum
              / (([⟨1/5⟩, ⟨2/5⟩] : List FractionGene).length : ℚ)) (1/10) 0 1 1).map
            fun p => (⟨p.1⟩, some p.2)) ∧
    (∀ (r : Random) (res : FractionGene) (rres : Option Random),
        FractionGene.merge [⟨1/5⟩, ⟨2/5⟩] (some r) (1/10) 1 = some (res, rres) →
        0 ≤ res.value ∧ res.value ≤ 1) :=
  fraction_merge_mean_or_resample [⟨1/5⟩, ⟨2/5⟩] (1/10) 1 (by decide)

/-! Claim C9. -/

/-- C9: merging the one-element parent set `[g]` with `mutation_odds = 0`
returns `g` unchanged, whether the RNG is absent or present: a single parent
makes every bit position unanimous, and a zero mutation probability never
flips a bit. -/
theorem merge_single_parent_identity (g : BitSet8Gene) (h256 : g.value.bits < 256) :
    BitSet8Gene.merge [g] none 0 = some (g, none)
    ∧ ∀ r : Random, r.WF → (BitSet8Gene.merge [g] (some r) 0).map Prod.fst = some g := by
  have hones : ∀ i, (BitCountsMap.new.increment g.value).ones i
      = if g.value.is_bit_set i then 1 else 0 := by
    intro i
    by_cases hb : g.value.is_bit_set i <;>
      simp [BitCountsMap.increment, BitCountsMap.new, hb]
  have hzeros : ∀ i, (BitCountsMap.new.increment g.value).zeros i
      = if g.value.is_bit_set i then 0 else 1 := by
    intro i
    by_cases hb : g.value.is_bit_set i <;>
      simp [BitCountsMap.increment, BitCountsMap.new, hb]
  have hu : ∀ i ∈ List.range 8, (BitCountsMap.new.increment g.value).ones i = 0 ∨
      (BitCountsMap.new.increment g.value).zeros i = 0 := by
    intro i _
    by_cases hb : g.value.is_bit_set i
    · right
      simp [hzeros, hb]
    · left
      simp [hones, hb]
  have hrecon : (List.range 8).foldl
      (fun b i => if (BitCountsMap.new.increment g.value).ones i = 0 then b else b.set_bit i)
      BitSet8.empty = g.value := by
    apply BitSet8.eq_of_bits_eq
    apply Nat.eq_of_testBit_eq
    intro j
    set fv := (List.range 8).foldl
      (fun b i => if (BitCountsMap.new.increment g.value).ones i = 0 then b else b.set_bit i)
      BitSet8.empty with hfv
    have hiff := foldl_vote_is_bit_set (BitCountsMap.new.increment g.value)
      (List.range 8) BitSet8.empty j
    rw [← hfv] at hiff
    show fv.is_bit_set j = g.value.is_bit_set j
    by_cases hj : j < 8
    · by_cases hb : g.value.is_bit_set j
      · rw [hb, hiff.mpr (Or.inr ⟨List.mem_range.mpr hj, by simp [hones j, hb]⟩)]
      · have hfalse : ¬ fv.is_bit_set j = true := by
          intro htrue
          rcases hiff.mp htrue with hempty | ⟨_, hone⟩
          · simp [BitSet8.empty, BitSet8.is_bit_set] at hempty
          · rw [hones j] at hone
            simp [hb] at hone
        rw [Bool.not_eq_true] at hfalse
        rw [hfalse]
        cases hgb : g.value.is_bit_set j
        · rfl
        · exact absurd hgb hb
    · have hfalse : ¬ fv.is_bit_set j = true := by
        intro htrue
        rcases hiff.mp htrue with hempty | ⟨hmem, _⟩
        · simp [BitSet8.empty, BitSet8.is_bit_set] at hempty
        · exact hj (List.mem_range.mp hmem)
      rw [Bool.not_eq_true] at hfalse
      rw [hfalse]
      have h2j : g.value.bits < 2 ^ j := by
        calc g.value.bits < 256 := h256
        _ = 2 ^ 8 := rfl
        _ ≤ 2 ^ j := Nat.pow_le_pow_right (by norm_num) (by omega)
      exact (Nat.testBit_lt_two_pow h2j).symm
  constructor
  · have key := foldlM_bit_step_none (BitCountsMap.new.increment g.value) 0
      (List.range 8) BitSet8.empty
    rw [if_pos hu] at key
    show (((BitCountsMap.new.increment g.value).as_bit_set none 0).map
      fun p => ((⟨p.1⟩ : BitSet8Gene), p.2)) = some (g, none)
    rw [BitCountsMap.as_bit_set, key, hrecon]
    rfl
  · intro r hWF
    have key := foldlM_bit_step_some_unanimous_zero (BitCountsMap.new.increment g.value)
      (List.range 8) BitSet8.empty r hWF hu
    show ((((BitCountsMap.new.increment g.value).as_bit_set (some r) 0).map
      fun p => ((⟨p.1⟩ : BitSet8Gene), p.2)).map Prod.fst) = some g
    rw [BitCountsMap.as_bit_set, key, hrecon]
    rfl

/-- C9 witness: the single parent `10100101` with mutation odds zero, with
and without an RNG. -/
theorem merge_single_parent_identity_witness :
    (165 : Nat) < 256 ∧
    BitSet8Gene.merge [⟨⟨165⟩⟩] none 0 = some (⟨⟨165⟩⟩, none) ∧
    (BitSet8Gene.merge [⟨⟨165⟩⟩] (some randHalf) 0).map Prod.fst = some ⟨⟨165⟩⟩ :=
  ⟨by decide, (merge_single_parent_identity ⟨⟨165⟩⟩ (by decide)).1,
   (merge_single_parent_identity ⟨⟨165⟩⟩ (by decide)).2 randHalf randHalf_WF⟩

/-! Claim C10. -/

/-- C10: with an absent RNG, `BitSet8Gene::merge` panics exactly when some
bit position below 8 is non-unanimous among the parents; when every position
is unanimous it returns the unanimous bit pattern, with the mutation arm
never applied (the result is the same for every mutation odds). -/
theorem merge_without_rng_panics_iff_mixed (genes : List BitSet8Gene) (modds : ℚ)
    (hne : genes ≠ []) :
    (BitSet8Gene.merge genes none modds = none ↔
      ∃ i < 8, 0 < onesCount genes i ∧ 0 < zerosCount genes i)
    ∧ ((∀ i < 8, onesCount genes i = 0 ∨ zerosCount genes i = 0) →
        ∃ res : BitSet8Gene,
          BitSet8Gene.merge genes none modds = some (res, none) ∧
          BitSet8Gene.merge genes none 0 = some (res, none) ∧
          ∀ i < 8, (res.value.is_bit_set i = true ↔ 0 < onesCount genes i)) := by
  have _ := hne
  set mm := genes.foldl (fun m g => m.increment g.value) BitCountsMap.new with hmm
  have hones : ∀ i, mm.ones i = onesCount genes i := by
    intro i
    rw [hmm, foldl_increment_ones]
    simp [BitCountsMap.new]
  have hzeros : ∀ i, mm.zeros i = zerosCount genes i := by
    intro i
    rw [hmm, foldl_increment_zeros]
    simp [BitCountsMap.new]
  have hunf : ∀ mo : ℚ, BitSet8Gene.merge genes none mo
      = ((List.range 8).foldlM (BitCountsMap.bit_step mm mo) (BitSet8.empty, none)).map
          fun p => ((⟨p.1⟩ : BitSet8Gene), p.2) := by
    intro mo
    rw [hmm]
    rfl
  constructor
  · rw [hunf modds, foldlM_bit_step_none]
    by_cases hall : ∀ i ∈ List.range 8, mm.ones i = 0 ∨ mm.zeros i = 0
    · rw [if_pos hall]
      simp only [Option.map_some']
      constructor
      · intro h
        exact absurd h (Option.some_ne_none _)
      · rintro ⟨i, hi8, hp1, hp2⟩
        rcases hall i (List.mem_range.mpr hi8) with h | h
        · rw [hones i] at h
          omega
        · rw [hzeros i] at h
          omega
    · rw [if_neg hall]
      simp only [Option.map_none', true_iff]
      push_neg at hall
      obtain ⟨i, hmem, hno⟩ := hall
      refine ⟨i, List.mem_range.mp hmem, ?_, ?_⟩
      · rw [← hones i]
        omega
      · rw [← hzeros i]
        omega
  · intro hall8
    have hall : ∀ i ∈ List.range 8, mm.ones i = 0 ∨ mm.zeros i = 0 := by
      intro i hi
      rw [hones i, hzeros i]
      exact hall8 i (List.mem_range.mp hi)
    have key : ∀ mo : ℚ, (List.range 8).foldlM (BitCountsMap.bit_step mm mo)
        (BitSet8.empty, (none : Option Random))
        = some ((List.range 8).foldl (fun b i => if mm.ones i = 0 then b else b.set_bit i)
            BitSet8.empty, none) := by
      intro mo
      rw [foldlM_bit_step_none, if_pos hall]
    refine ⟨⟨(List.range 8).foldl (fun b i => if mm.ones i = 0 then b else b.set_bit i)
      BitSet8.empty⟩, ?_, ?_, ?_⟩
    · rw [hunf modds, key modds]
      rfl
    · rw [hunf 0, key 0]
      rfl
    · intro i hi8
      rw [foldl_vote_is_bit_set]
      constructor
      · rintro (hempty | ⟨_, hone⟩)
        · simp [BitSet8.empty, BitSet8.is_bit_set] at hempty
        · rw [hones i] at hone
          omega
      · intro hpos
        refine Or.inr ⟨List.mem_range.mpr hi8, ?_⟩
        rw [hones i]
        omega

/-- C10 witness: parents `00000011` and `00000101` disagree on bits 1 and 2,
so the RNG-less merge panics; the unanimous parents `00000011` and
`00000011` merge to `00000011` under every mutation odds. -/
theorem merge_without_rng_panics_iff_mixed_witness :
    (BitSet8Gene.merge [⟨⟨3⟩⟩, ⟨⟨5⟩⟩] none (1/2) = none ↔
      ∃ i < 8, 0 < onesCount [⟨⟨3⟩⟩, ⟨⟨5⟩⟩] i ∧ 0 < zerosCount [⟨⟨3⟩⟩, ⟨⟨5⟩⟩] i) ∧
    ((∀ i < 8, onesCount [⟨⟨3⟩⟩, ⟨⟨5⟩⟩] i = 0 ∨ zerosCount [⟨⟨3⟩⟩, ⟨⟨5⟩⟩] i = 0) →
        ∃ res : BitSet8Gene,
          BitSet8Gene.merge [⟨⟨3⟩⟩, ⟨⟨5⟩⟩] none (1/2) = some (res, none) ∧
          BitSet8Gene.merge [⟨⟨3⟩⟩, ⟨⟨5⟩⟩] none 0 = some (res, none) ∧
          ∀ i < 8, (res.value.is_bit_set i = true ↔ 0 < onesCount [⟨⟨3⟩⟩, ⟨⟨5⟩⟩] i)) :=
  merge_without_rng_panics_iff_mixed [⟨⟨3⟩⟩, ⟨⟨5⟩⟩] (1/2) (by decide)

end EvoGrid
